import Mathlib

/-!
Verification of the MAP-Elites / FI-2Pop core of the
`space-engineers-ai-spaceship-generator` repository (`pcgsepy`).

Python `float` values are modelled as rationals (`ℚ`); Python `int` as
`ℤ`/`ℕ`; Python lists as Lean lists; exceptions as `Except`/`Option`;
a raising division is modelled by `pyDiv` below.  Configuration
constants (`EPSILON_F`, `CS_MAX_AGE`, `BIN_POP_SIZE`, ... from
`pcgsepy/config.py`) are passed as explicit parameters.
-/

/-- Python float division `a / b`: raises `ZeroDivisionError` when `b == 0`
(modelled by `none`). -/
def pyDiv (a b : ℚ) : Option ℚ := if b = 0 then none else some (a / b)

/-- The 3D structure owned by a solution (`pcgsepy/structure.py`, external to
the core sources): only the fields the core reads are modelled — its block
list (read by `CandidateSolution.set_content` for `n_blocks`) and its
maximal dimensions `_max_dims` (read by `MAPElites.compute_fitness`). -/
structure Structure where
  _blocks : List ℕ
  _max_dims : ℚ × ℚ × ℚ := (0, 0, 0)
deriving DecidableEq, Repr

/-- `CandidateSolution` (`pcgsepy/lsystem/solution.py`), with the fields the
verified operations touch; the default field values are the ones assigned in
`CandidateSolution.__init__`. -/
structure CandidateSolution where
  string : String
  _content : Option Structure := none
  age : ℤ := 0
  b_descs : ℚ × ℚ := (0, 0)
  c_fitness : ℚ := 0
  fitness : List ℚ := []
  is_feasible : Bool := true
  ncv : ℕ := 0
  n_blocks : ℕ := 0
  representation : List ℚ := []
deriving DecidableEq, Repr

/-- `CandidateSolution.set_content` (solution.py:53-67): raises when a
content is already set (`if self._content:`), otherwise stores the content
and its block count. -/
def set_content (cs : CandidateSolution) (content : Structure) :
    Except String CandidateSolution :=
  if cs._content.isSome then
    Except.error "Structure already exists for this CandidateSolution."
  else
    Except.ok { cs with _content := some content,
                        n_blocks := content._blocks.length }

/-- C9: a successful `set_content` can only have happened on a solution with
no content; it stores the content and its block count, and a second
`set_content` on the result raises, so content is set at most once. -/
theorem set_content_at_most_once (cs : CandidateSolution)
    (c c2 : Structure) (cs' : CandidateSolution)
    (h : set_content cs c = Except.ok cs') :
    cs._content = none ∧
    cs'._content = some c ∧
    cs'.n_blocks = c._blocks.length ∧
    set_content cs' c2 =
      Except.error "Structure already exists for this CandidateSolution." := by
  unfold set_content at h ⊢
  by_cases hc : cs._content.isSome
  · simp [hc] at h
  · simp [hc] at h ⊢
    subst h
    simpa using Option.not_isSome_iff_eq_none.mp hc

/-- Witness for C9 at a concrete solution and structure. -/
theorem set_content_at_most_once_witness :
    set_content { string := "head" } { _blocks := [1, 2, 3] } =
      Except.ok { string := "head", _content := some { _blocks := [1, 2, 3] },
                  n_blocks := 3 } ∧
    ({ string := "head" } : CandidateSolution)._content = none ∧
    ({ string := "head", _content := some { _blocks := [1, 2, 3] },
       n_blocks := 3 } : CandidateSolution)._content =
      some { _blocks := [1, 2, 3] } ∧
    ({ string := "head", _content := some { _blocks := [1, 2, 3] },
       n_blocks := 3 } : CandidateSolution).n_blocks =
      ({ _blocks := [1, 2, 3] } : Structure)._blocks.length ∧
    set_content { string := "head", _content := some { _blocks := [1, 2, 3] },
                  n_blocks := 3 } { _blocks := [] } =
      Except.error "Structure already exists for this CandidateSolution." := by
  refine ⟨rfl, ?_⟩
  have := set_content_at_most_once { string := "head" }
    { _blocks := [1, 2, 3] } { _blocks := [] }
    { string := "head", _content := some { _blocks := [1, 2, 3] },
      n_blocks := 3 } rfl
  exact this

/-- A 3D vector of floats (`pcgsepy/common/vecs.py`, external to the core
sources): only the coordinates are needed by `intersect_planes`. -/
structure Vec where
  x : ℚ
  y : ℚ
  z : ℚ
deriving DecidableEq, Repr

/-- The contribution of one pair of mountpoint boxes to the accumulator of
`HullBuilder.intersect_planes` (hullbuilder.py:460-476): the body of the
double loop, one branch per axis-aligned overlap case, `0` otherwise. -/
def mountpoint_intersection_term (start1 end1 start2 end2 : Vec) : ℚ :=
  let x1 := max start1.x start2.x
  let y1 := max start1.y start2.y
  let z1 := max start1.z start2.z
  let x2 := min end1.x end2.x
  let y2 := min end1.y end2.y
  let z2 := min end1.z end2.z
  if x1 < x2 ∧ y1 < y2 ∧ z2 < z1 then (x2 - x1) * (y2 - y1)
  else if x1 < x2 ∧ y2 ≤ y1 ∧ z1 < z2 then (x2 - x1) * (z2 - z1)
  else if x2 ≤ x1 ∧ y1 < y2 ∧ z1 < z2 then (y2 - y1) * (z2 - z1)
  else 0

/-- `HullBuilder.intersect_planes` (hullbuilder.py:444-477): accumulates the
mountpoint-pair intersection areas over `zip(starts1, ends1)` ×
`zip(starts2, ends2)` and returns `1 / intersect_bbox`; the Python float
division raises `ZeroDivisionError` when the accumulator is `0.0`
(modelled by `pyDiv`). -/
def intersect_planes (starts1 ends1 starts2 ends2 : List Vec) : Option ℚ :=
  let intersect_bbox :=
    (starts1.zip ends1).foldl (fun acc p1 =>
      (starts2.zip ends2).foldl (fun acc2 p2 =>
        acc2 + mountpoint_intersection_term p1.1 p1.2 p2.1 p2.2) acc) 0
  pyDiv 1 intersect_bbox

theorem mountpoint_intersection_term_nonneg (s1 e1 s2 e2 : Vec) :
    0 ≤ mountpoint_intersection_term s1 e1 s2 e2 := by
  unfold mountpoint_intersection_term
  simp only []
  split_ifs with h1 h2 h3
  · exact mul_nonneg (by linarith [h1.1]) (by linarith [h1.2.1])
  · exact mul_nonneg (by linarith [h2.1]) (by linarith [h2.2.2])
  · exact mul_nonneg (by linarith [h3.2.1]) (by linarith [h3.2.2])
  · exact le_refl 0

theorem foldl_add_eq_add_sum (f : Vec × Vec → ℚ) (l : List (Vec × Vec))
    (c : ℚ) : l.foldl (fun a x => a + f x) c = c + (l.map f).sum := by
  induction l generalizing c with
  | nil => simp
  | cons hd tl ih => simp [ih, add_assoc]

theorem sum_eq_zero_iff_of_nonneg (l : List ℚ) (h : ∀ x ∈ l, 0 ≤ x) :
    l.sum = 0 ↔ ∀ x ∈ l, x = 0 := by
  induction l with
  | nil => simp
  | cons hd tl ih =>
    have hhd : 0 ≤ hd := h hd (List.mem_cons_self hd tl)
    have htl : ∀ x ∈ tl, 0 ≤ x := fun x hx => h x (List.mem_cons_of_mem hd hx)
    have hsum : 0 ≤ tl.sum := List.sum_nonneg htl
    constructor
    · intro hz
      rw [List.sum_cons] at hz
      have h0 : hd = 0 ∧ tl.sum = 0 := by constructor <;> linarith
      intro x hx
      rcases List.mem_cons.mp hx with hx | hx
      · exact hx ▸ h0.1
      · exact (ih htl).mp h0.2 x hx
    · intro hz
      have : hd = 0 := hz hd (List.mem_cons_self hd tl)
      simp [this, (ih htl).mpr (fun x hx => hz x (List.mem_cons_of_mem hd hx))]

/-- C10: `intersect_planes` divides by zero (raises) exactly when no pair of
mountpoint boxes contributes a positive intersection term, i.e. it is total
only under the precondition that some mountpoint pair contributes positive
area. -/
theorem intersect_planes_div_by_zero (starts1 ends1 starts2 ends2 : List Vec) :
    intersect_planes starts1 ends1 starts2 ends2 = none ↔
      ∀ p1 ∈ starts1.zip ends1, ∀ p2 ∈ starts2.zip ends2,
        mountpoint_intersection_term p1.1 p1.2 p2.1 p2.2 = 0 := by
  unfold intersect_planes pyDiv
  have hinner : ∀ (p1 : Vec × Vec) (c : ℚ),
      (starts2.zip ends2).foldl (fun acc2 p2 =>
        acc2 + mountpoint_intersection_term p1.1 p1.2 p2.1 p2.2) c
      = c + ((starts2.zip ends2).map
          (fun p2 => mountpoint_intersection_term p1.1 p1.2 p2.1 p2.2)).sum := by
    intro p1 c
    exact foldl_add_eq_add_sum _ _ c
  have houter :
      (starts1.zip ends1).foldl (fun acc p1 =>
        (starts2.zip ends2).foldl (fun acc2 p2 =>
          acc2 + mountpoint_intersection_term p1.1 p1.2 p2.1 p2.2) acc) 0
      = ((starts1.zip ends1).map (fun p1 =>
          ((starts2.zip ends2).map
            (fun p2 => mountpoint_intersection_term p1.1 p1.2 p2.1 p2.2)).sum)).sum := by
    have : ∀ (l : List (Vec × Vec)) (c : ℚ),
        l.foldl (fun acc p1 =>
          (starts2.zip ends2).foldl (fun acc2 p2 =>
            acc2 + mountpoint_intersection_term p1.1 p1.2 p2.1 p2.2) acc) c
        = c + (l.map (fun p1 =>
            ((starts2.zip ends2).map
              (fun p2 => mountpoint_intersection_term p1.1 p1.2 p2.1 p2.2)).sum)).sum := by
      intro l
      induction l with
      | nil => simp
      | cons hd tl ih =>
        intro c
        simp only [List.foldl_cons, List.map_cons, List.sum_cons, ih, hinner hd c]
        ring
    simpa using this (starts1.zip ends1) 0
  rw [houter]
  have hnn : ∀ x ∈ (starts1.zip ends1).map (fun p1 =>
      ((starts2.zip ends2).map
        (fun p2 => mountpoint_intersection_term p1.1 p1.2 p2.1 p2.2)).sum), 0 ≤ x := by
    intro x hx
    rcases List.mem_map.mp hx with ⟨p1, _, rfl⟩
    exact List.sum_nonneg (by
      intro y hy
      rcases List.mem_map.mp hy with ⟨p2, _, rfl⟩
      exact mountpoint_intersection_term_nonneg _ _ _ _)
  constructor
  · intro h p1 hp1 p2 hp2
    have hz : ((starts1.zip ends1).map (fun p1 =>
        ((starts2.zip ends2).map
          (fun p2 => mountpoint_intersection_term p1.1 p1.2 p2.1 p2.2)).sum)).sum = 0 := by
      by_contra hne
      simp [hne] at h
    have hall := (sum_eq_zero_iff_of_nonneg _ hnn).mp hz
    have hrow := hall _ (List.mem_map_of_mem _ hp1)
    have hrow_nn : ∀ y ∈ (starts2.zip ends2).map
        (fun p2 => mountpoint_intersection_term p1.1 p1.2 p2.1 p2.2), 0 ≤ y := by
      intro y hy
      rcases List.mem_map.mp hy with ⟨p2, _, rfl⟩
      exact mountpoint_intersection_term_nonneg _ _ _ _
    exact (sum_eq_zero_iff_of_nonneg _ hrow_nn).mp hrow _ (List.mem_map_of_mem _ hp2)
  · intro h
    have hz : ((starts1.zip ends1).map (fun p1 =>
        ((starts2.zip ends2).map
          (fun p2 => mountpoint_intersection_term p1.1 p1.2 p2.1 p2.2)).sum)).sum = 0 := by
      refine (sum_eq_zero_iff_of_nonneg _ hnn).mpr ?_
      intro x hx
      rcases List.mem_map.mp hx with ⟨p1, hp1, rfl⟩
      refine (sum_eq_zero_iff_of_nonneg _ ?_).mpr ?_
      · intro y hy
        rcases List.mem_map.mp hy with ⟨p2, _, rfl⟩
        exact mountpoint_intersection_term_nonneg _ _ _ _
      · intro y hy
        rcases List.mem_map.mp hy with ⟨p2, hp2, rfl⟩
        exact h p1 hp1 p2 hp2
    simp [hz]

/-- The surrogate fitness estimators (`pcgsepy/nn/estimators.py`, external
to the core sources), as a tagged variant: each kind carries its
`is_trained` flag and its `predict` function; a quantile estimator predicts
a `(min, median, max)` triple. -/
inductive SurrogateEstimator where
  | gaussian (is_trained : Bool) (predict : List ℚ → ℚ)
  | mlp (is_trained : Bool) (predict : List ℚ → ℚ)
  | quantile (is_trained : Bool) (predict : List ℚ → ℚ × ℚ × ℚ)

/-- A feasible fitness objective (`pcgsepy/evo/fitness.py`, external): a
bounded scalar function with a mutable weight. -/
structure Fitness where
  weight : ℚ := 1
  bounds : ℚ × ℚ := (0, 1)
  f : CandidateSolution → ℚ

/-- The four descriptive proxy objectives evaluated into `representation`
for an infeasible solution (map.py:235-238). -/
def infeas_representation
    (box_filling_fitness func_blocks_fitness mame_fitness mami_fitness :
      CandidateSolution → ℚ)
    (cs : CandidateSolution) : List ℚ :=
  [box_filling_fitness cs, func_blocks_fitness cs, mame_fitness cs,
   mami_fitness cs]

/-- `MAPElites.compute_fitness` (map.py:215-256), returning the fitness
value together with the updated solution.  The external fitness functions
and the configuration constants `MAX_X_SIZE`, `MAX_Y_SIZE`, `MAX_Z_SIZE`
and `EPSILON_F` are parameters; `USE_TORCH` is taken as true (with it
false a `MLPEstimator`/`QuantileEstimator` can never be instantiated).
Accessing `cs.content` with no content set raises (`Except.error`). -/
def compute_fitness (feasible_fitnesses : List Fitness)
    (estimator : Option SurrogateEstimator) (infeas_fitness_idx : Fin 3)
    (MAX_X_SIZE MAX_Y_SIZE MAX_Z_SIZE EPSILON_F : ℚ)
    (box_filling_fitness func_blocks_fitness mame_fitness mami_fitness :
      CandidateSolution → ℚ)
    (cs : CandidateSolution) : Except String (ℚ × CandidateSolution) :=
  if cs.is_feasible then
    match cs._content with
    | none => Except.error "Structure has not been set yet."
    | some content =>
      let fitness := feasible_fitnesses.map (fun fit => fit.f cs)
      let representation :=
        fitness ++ [content._max_dims.1 / MAX_X_SIZE,
                    content._max_dims.2.1 / MAX_Y_SIZE,
                    content._max_dims.2.2 / MAX_Z_SIZE]
      let cs := { cs with fitness := fitness, representation := representation }
      Except.ok
        (((feasible_fitnesses.zip fitness).map (fun p => p.1.weight * p.2)).sum,
         cs)
  else
    let representation :=
      infeas_representation box_filling_fitness func_blocks_fitness
        mame_fitness mami_fitness cs
    let cs := { cs with representation := representation }
    match estimator with
    | some (SurrogateEstimator.gaussian is_trained predict) =>
        Except.ok (if is_trained then predict representation else EPSILON_F, cs)
    | some (SurrogateEstimator.mlp is_trained predict) =>
        Except.ok (if is_trained then predict representation else EPSILON_F, cs)
    | some (SurrogateEstimator.quantile is_trained predict) =>
        if is_trained then
          let q := predict representation
          let cs := { cs with fitness := [q.1, q.2.1, q.2.2] }
          Except.ok (cs.fitness.getD infeas_fitness_idx.val 0, cs)
        else
          let cs := { cs with fitness := [EPSILON_F, EPSILON_F, EPSILON_F] }
          Except.ok (cs.fitness.getD infeas_fitness_idx.val 0, cs)
    | none => Except.ok ((cs.ncv : ℚ), cs)

/-- The infeasible-fitness value as the spec (§4.1) and claim C1 word it:
`ncv` without an estimator; `EPSILON_F` for a configured but untrained
estimator; the estimator's prediction when trained — for a quantile
estimator the order statistic of the `(min, median, max)` triple selected
by `infeas_fitness_idx`. -/
def compute_fitness_infeasible_spec (estimator : Option SurrogateEstimator)
    (infeas_fitness_idx : Fin 3) (EPSILON_F : ℚ)
    (representation : List ℚ) (ncv : ℕ) : ℚ :=
  match estimator with
  | none => (ncv : ℚ)
  | some (SurrogateEstimator.gaussian is_trained predict) =>
      if is_trained then predict representation else EPSILON_F
  | some (SurrogateEstimator.mlp is_trained predict) =>
      if is_trained then predict representation else EPSILON_F
  | some (SurrogateEstimator.quantile is_trained predict) =>
      if is_trained then
        [(predict representation).1, (predict representation).2.1,
         (predict representation).2.2].getD infeas_fitness_idx.val 0
      else EPSILON_F

/-- C1: on every infeasible solution `compute_fitness` returns exactly the
value described by `compute_fitness_infeasible_spec`, and a quantile
estimator additionally stores the triple (three epsilons when untrained,
the predicted `(min, median, max)` when trained) into `cs.fitness`. -/
theorem compute_fitness_infeasible_cases (feasible_fitnesses : List Fitness)
    (estimator : Option SurrogateEstimator) (idx : Fin 3)
    (MX MY MZ EPSILON_F : ℚ)
    (bf fb ma mi : CandidateSolution → ℚ) (pq : List ℚ → ℚ × ℚ × ℚ)
    (cs : CandidateSolution) (h : cs.is_feasible = false) :
    (compute_fitness feasible_fitnesses estimator idx MX MY MZ EPSILON_F
        bf fb ma mi cs).map Prod.fst
      = Except.ok (compute_fitness_infeasible_spec estimator idx EPSILON_F
          (infeas_representation bf fb ma mi cs) cs.ncv)
    ∧ (compute_fitness feasible_fitnesses
          (some (SurrogateEstimator.quantile false pq)) idx MX MY MZ EPSILON_F
          bf fb ma mi cs).map (fun r => r.2.fitness)
      = Except.ok [EPSILON_F, EPSILON_F, EPSILON_F]
    ∧ (compute_fitness feasible_fitnesses
          (some (SurrogateEstimator.quantile true pq)) idx MX MY MZ EPSILON_F
          bf fb ma mi cs).map (fun r => r.2.fitness)
      = Except.ok [(pq (infeas_representation bf fb ma mi cs)).1,
                   (pq (infeas_representation bf fb ma mi cs)).2.1,
                   (pq (infeas_representation bf fb ma mi cs)).2.2] := by
  refine ⟨?_, ?_, ?_⟩
  · cases estimator with
    | none =>
      simp [compute_fitness, compute_fitness_infeasible_spec, h, Except.map]
    | some e =>
      cases e with
      | gaussian t p =>
        simp [compute_fitness, compute_fitness_infeasible_spec, h, Except.map]
      | mlp t p =>
        simp [compute_fitness, compute_fitness_infeasible_spec, h, Except.map]
      | quantile t p =>
        cases t with
        | true =>
          simp [compute_fitness, compute_fitness_infeasible_spec, h, Except.map]
        | false =>
          rcases idx with ⟨i, hi⟩
          interval_cases i <;>
            simp [compute_fitness, compute_fitness_infeasible_spec, h,
              Except.map]
  · simp [compute_fitness, h, Except.map]
  · simp [compute_fitness, h, Except.map]

/-- A concrete infeasible solution for the C1 witness. -/
def csInfeasW : CandidateSolution := { string := "body", is_feasible := false, ncv := 2 }

/-- A concrete zero fitness function for the C1 witness. -/
def zfnW : CandidateSolution → ℚ := fun _ => 0

/-- A concrete quantile prediction for the C1 witness. -/
def pq3W : List ℚ → ℚ × ℚ × ℚ := fun _ => (1, 2, 3)

/-- Witness for C1 at concrete inputs. -/
theorem compute_fitness_infeasible_cases_witness :
    csInfeasW.is_feasible = false ∧
    ((compute_fitness [] none 1 1 1 1 (1/100) zfnW zfnW zfnW zfnW
        csInfeasW).map Prod.fst
      = Except.ok (compute_fitness_infeasible_spec none 1 (1/100)
          (infeas_representation zfnW zfnW zfnW zfnW csInfeasW) csInfeasW.ncv)
    ∧ (compute_fitness [] (some (SurrogateEstimator.quantile false pq3W)) 1 1 1 1
          (1/100) zfnW zfnW zfnW zfnW csInfeasW).map (fun r => r.2.fitness)
      = Except.ok [1/100, 1/100, 1/100]
    ∧ (compute_fitness [] (some (SurrogateEstimator.quantile true pq3W)) 1 1 1 1
          (1/100) zfnW zfnW zfnW zfnW csInfeasW).map (fun r => r.2.fitness)
      = Except.ok [(pq3W (infeas_representation zfnW zfnW zfnW zfnW csInfeasW)).1,
                   (pq3W (infeas_representation zfnW zfnW zfnW zfnW csInfeasW)).2.1,
                   (pq3W (infeas_representation zfnW zfnW zfnW zfnW csInfeasW)).2.2]) :=
  ⟨rfl, compute_fitness_infeasible_cases [] none 1 1 1 1 (1/100)
    zfnW zfnW zfnW zfnW pq3W csInfeasW rfl⟩

/-- The `minimize` flag computed at map.py:562 inside `MAPElites._step`:
`minimize = False if pop[0].is_feasible else False if self.estimator is not
None else True`, computed only when `len(pop) > 0` (`none` otherwise). -/
def step_minimize (pop : List CandidateSolution)
    (estimator : Option SurrogateEstimator) : Option Bool :=
  match pop with
  | [] => none
  | cs :: _ =>
      some (if cs.is_feasible then false
            else if estimator.isSome then false else true)

/-- C2: for a non-empty population, the `minimize` flag passed to
`create_new_pool` is true exactly when the population is infeasible and no
surrogate estimator is configured; in particular it is false for a feasible
population and false for an infeasible one once an estimator is set. -/
theorem step_minimize_direction (cs : CandidateSolution)
    (rest : List CandidateSolution) (estimator : Option SurrogateEstimator) :
    step_minimize (cs :: rest) estimator
      = some (!cs.is_feasible && estimator.isNone) := by
  cases h : cs.is_feasible <;> cases estimator <;> simp [step_minimize, h]

/-- The offspring-generation loop of `MAPElites._step` (map.py:556-583):
for each non-empty population an offspring pool is created
(`create_new_pool`, which may raise an `EvoException`, modelled by
`Except.error`), post-processed (low-level strings, structures,
subdivision, preparation and fitness assignment — the external collaborator
chain, modelled by `process`), and appended to `generated`; an
`EvoException` is caught and that population contributes nothing.  The
resulting list is filtered by `_within_range` (map.py:583). -/
def step_generate
    (create_new_pool :
      List CandidateSolution → ℕ → ℕ → Bool →
        Except String (List CandidateSolution))
    (process : List CandidateSolution → List CandidateSolution)
    (within_range : CandidateSolution → Bool)
    (estimator : Option SurrogateEstimator) (BIN_POP_SIZE gen : ℕ)
    (populations : List (List CandidateSolution)) : List CandidateSolution :=
  (populations.foldl (fun generated pop =>
    match pop with
    | [] => generated
    | cs0 :: _ =>
      let minimize := if cs0.is_feasible then false
                      else if estimator.isSome then false else true
      match create_new_pool pop gen BIN_POP_SIZE minimize with
      | Except.error _ => generated
      | Except.ok new_pool => generated ++ process new_pool) []).filter
    within_range

/-- C3: if `create_new_pool` raises an `EvoException` on one of the two
populations handed to `_step`, the exception is swallowed, that population
contributes no offspring, and the step returns exactly what the other
population alone produces — the loop is never aborted. -/
theorem step_generate_catches_evoexception
    (cnp cnp2 :
      List CandidateSolution → ℕ → ℕ → Bool →
        Except String (List CandidateSolution))
    (process : List CandidateSolution → List CandidateSolution)
    (within_range : CandidateSolution → Bool)
    (estimator : Option SurrogateEstimator) (n gen : ℕ)
    (c1 c2 : CandidateSolution) (p1 p2 : List CandidateSolution)
    (e e2 : String)
    (h1 : cnp (c1 :: p1) gen n
        (if c1.is_feasible then false
         else if estimator.isSome then false else true) = Except.error e)
    (h2 : cnp2 (c2 :: p2) gen n
        (if c2.is_feasible then false
         else if estimator.isSome then false else true) = Except.error e2) :
    step_generate cnp process within_range estimator n gen
        [c1 :: p1, c2 :: p2]
      = step_generate cnp process within_range estimator n gen [c2 :: p2]
    ∧ step_generate cnp2 process within_range estimator n gen
        [c1 :: p1, c2 :: p2]
      = step_generate cnp2 process within_range estimator n gen
        [c1 :: p1] := by
  constructor
  · simp only [step_generate, List.foldl_cons, List.foldl_nil, h1]
  · simp only [step_generate, List.foldl_cons, List.foldl_nil, h2]

/-- A failing offspring generator for the C3 witness: always raises. -/
def cnpFailW : List CandidateSolution → ℕ → ℕ → Bool →
    Except String (List CandidateSolution) :=
  fun _ _ _ _ => Except.error "Could not apply crossover"

/-- A concrete feasible solution for the C3 witness. -/
def csFeasW : CandidateSolution := { string := "tail" }

/-- Witness for C3 at concrete inputs. -/
theorem step_generate_catches_evoexception_witness :
    cnpFailW [csFeasW] 0 20
        (if csFeasW.is_feasible then false
         else if (none : Option SurrogateEstimator).isSome then false else true)
      = Except.error "Could not apply crossover" ∧
    cnpFailW [csInfeasW] 0 20
        (if csInfeasW.is_feasible then false
         else if (none : Option SurrogateEstimator).isSome then false else true)
      = Except.error "Could not apply crossover" ∧
    (step_generate cnpFailW id (fun _ => true) none 20 0 [[csFeasW], [csInfeasW]]
      = step_generate cnpFailW id (fun _ => true) none 20 0 [[csInfeasW]]
    ∧ step_generate cnpFailW id (fun _ => true) none 20 0 [[csFeasW], [csInfeasW]]
      = step_generate cnpFailW id (fun _ => true) none 20 0 [[csFeasW]]) :=
  ⟨rfl, rfl,
   step_generate_catches_evoexception cnpFailW cnpFailW id (fun _ => true)
     none 20 0 csFeasW csInfeasW [] [] "Could not apply crossover"
     "Could not apply crossover" rfl rfl⟩

/-- Python `cs in pop` membership, which goes through
`CandidateSolution.__eq__` (solution.py:44-48): equality is by `string`. -/
def in_pop (cs : CandidateSolution) (pop : List CandidateSolution) : Bool :=
  pop.any (fun other => other.string == cs.string)

/-- The population-filling inner loop of
`FI2PopSolver._generate_initial_populations` (fi2pop.py:78-85) over one
batch of solutions returned by `apply_rules`: a feasible solution is
appended (with its fitness assigned) when the feasible population is below
`pops_size` and `cs not in feasible_pop`; an infeasible solution is
appended (with `c_fitness = ncv`) when the infeasible population is below
`pops_size` and — exactly as the source has it — `cs not in feasible_pop`.
`MAPElites.generate_initial_populations` (map.py:516-525) uses the same
membership tests. -/
def generate_initial_populations_loop (feasible_fitnesses : List Fitness)
    (nsc : ℚ) (pops_size : ℕ) (solutions : List CandidateSolution) :
    List CandidateSolution × List CandidateSolution :=
  solutions.foldl (fun pops cs =>
    let feasible_pop := pops.1
    let infeasible_pop := pops.2
    if cs.is_feasible && decide (feasible_pop.length < pops_size) &&
        !(in_pop cs feasible_pop) then
      let fitness := feasible_fitnesses.map (fun fit => fit.f cs)
      (feasible_pop ++
        [{ cs with fitness := fitness,
                   c_fitness := fitness.sum + (nsc - (cs.ncv : ℚ)) }],
       infeasible_pop)
    else if !cs.is_feasible && decide (infeasible_pop.length < pops_size) &&
        !(in_pop cs feasible_pop) then
      (feasible_pop, infeasible_pop ++ [{ cs with c_fitness := (cs.ncv : ℚ) }])
    else pops) ([], [])

/-- Two distinct infeasible solutions sharing the same `string`, as
`apply_rules` can produce across retries. -/
def csDupAW : CandidateSolution := { string := "headbodytail", is_feasible := false, ncv := 1 }

/-- A second infeasible solution with the same `string` as `csDupAW`. -/
def csDupBW : CandidateSolution := { string := "headbodytail", is_feasible := false, ncv := 3 }

/-- C8 (failing input): feeding two infeasible solutions with equal
`string` through the initial-population loop puts both of them into the
infeasible population, because the dedup test of the infeasible branch
checks membership in the *feasible* population (fi2pop.py:83,
map.py:524) — the claimed per-population string dedup does not hold. -/
theorem generate_initial_populations_infeasible_dup :
    ((generate_initial_populations_loop [] 0 10 [csDupAW, csDupBW]).2.map
        (fun cs => cs.string)) = ["headbodytail", "headbodytail"] ∧
    ¬ ((generate_initial_populations_loop [] 0 10 [csDupAW, csDupBW]).2.map
        (fun cs => cs.string)).Nodup ∧
    ((generate_initial_populations_loop [] 0 10 [csDupAW, csDupBW]).1 = []) := by
  refine ⟨rfl, ?_, rfl⟩
  decide

/-- An archive cell (`pcgsepy/mapelites/bin.py`, whose source is not under
src/): the fields the archive operations in map.py read — the two
populations and the per-population new-elite markers.  Bin-geometry
metadata is tracked at the archive level (`bin_sizes`). -/
structure MAPBin where
  _feasible : List CandidateSolution := []
  _infeasible : List CandidateSolution := []
  new_elite_feas : Bool := false
  new_elite_infeas : Bool := false
deriving DecidableEq, Repr

/-- The `MAPElites` archive state (map.py:91-161) as the grid operations
see it: the per-axis bin-size tables, the bin counts, the grid of bins
(cells outside `bin_qnt` are irrelevant), the lower behavior-descriptor
bounds `b_descs[i].bounds[0]`, and the `allow_aging` flag. -/
structure MAPElites where
  bin_sizes0 : List ℚ
  bin_sizes1 : List ℚ
  bin_qnt : ℕ × ℕ
  bins : ℕ → ℕ → MAPBin
  lb0 : ℚ := 0
  lb1 : ℚ := 0
  allow_aging : Bool := true

/-- The in-range cell indices of the grid, in `np.ndenumerate` (row-major)
order, as signed pairs. -/
def all_idxs (s : MAPElites) : List (ℤ × ℤ) :=
  (List.range s.bin_qnt.1).flatMap (fun (i : ℕ) =>
    (List.range s.bin_qnt.2).map (fun (j : ℕ) => ((i : ℤ), (j : ℤ))))

/-- Modelled from the spec: `MAPBin.age` (bin.py is not in src/); §4.3:
"every generation, all bins age their population by −1". -/
def MAPBin.age_by (b : MAPBin) (diff : ℤ) : MAPBin :=
  { b with
    _feasible := b._feasible.map (fun cs => { cs with age := cs.age + diff }),
    _infeasible := b._infeasible.map (fun cs => { cs with age := cs.age + diff }) }

/-- `MAPElites._age_bins` (map.py:376-385), with `allow_aging` honoured. -/
def _age_bins (s : MAPElites) (diff : ℤ) : MAPElites :=
  if s.allow_aging then
    { s with bins := fun i j => (s.bins i j).age_by diff }
  else s

/-- `MAPElites._valid_bins` (map.py:387-393): the bins holding at least one
feasible solution, in `np.ndenumerate` order. -/
def _valid_bins (s : MAPElites) : List MAPBin :=
  ((List.range s.bin_qnt.1).flatMap (fun i =>
    (List.range s.bin_qnt.2).map (fun j => s.bins i j))).filter
    (fun cbin => 0 < cbin._feasible.length)

/-- Python's `random.choice(seq)`: raises `IndexError` on an empty sequence
(modelled by `none`); on a non-empty one returns some element (the one at
an arbitrary in-range position `k % len(seq)`). -/
def random_choice {α : Type} (seq : List α) (k : ℕ) : Option α :=
  seq.get? (k % seq.length)

/-- The bin selection performed by `MAPElites.rand_step` (map.py:621-638):
it first ages all bins (`self._age_bins()`), then evaluates
`random.choice(self._valid_bins())`. -/
def rand_step_selection (s : MAPElites) (k : ℕ) : Option MAPBin :=
  random_choice (_valid_bins (_age_bins s (-1))) k

theorem valid_bins_age_by_nil (s : MAPElites) (d : ℤ)
    (h : _valid_bins s = []) : _valid_bins (_age_bins s d) = [] := by
  unfold _age_bins
  by_cases ha : s.allow_aging
  · simp only [ha, if_true]
    unfold _valid_bins at h ⊢
    rw [List.filter_eq_nil_iff] at h ⊢
    intro b hb
    simp only [List.mem_flatMap, List.mem_map, List.mem_range] at hb
    obtain ⟨i, hi, j, hj, rfl⟩ := hb
    have horig := h (s.bins i j) (by
      simp only [List.mem_flatMap, List.mem_map, List.mem_range]
      exact ⟨i, hi, j, hj, rfl⟩)
    simpa [MAPBin.age_by] using horig
  · simpa [ha] using h

/-- C4: with zero valid bins, the `random.choice` inside
`MAPElites.rand_step` is applied to an empty list and raises `IndexError`
(modelled by `none`) — the step does raise, contrary to the claim. -/
theorem rand_step_selection_empty_raises (s : MAPElites) (k : ℕ)
    (h : _valid_bins s = []) : rand_step_selection s k = none := by
  unfold rand_step_selection random_choice
  rw [valid_bins_age_by_nil s (-1) h]
  simp

/-- A 1×1 archive whose only bin holds no feasible solution. -/
def noFeasGridW : MAPElites :=
  { bin_sizes0 := [10], bin_sizes1 := [10], bin_qnt := (1, 1),
    bins := fun _ _ => { _infeasible := [csInfeasW] } }

/-- Witness for C4 at a concrete archive with zero valid bins. -/
theorem rand_step_selection_empty_raises_witness :
    _valid_bins noFeasGridW = [] ∧ rand_step_selection noFeasGridW 0 = none :=
  ⟨by decide, rand_step_selection_empty_raises noFeasGridW 0 (by decide)⟩

/-- The feasible solutions of every bin, in the iteration order of
`fitness_reward`'s loop over `self.bins.flatten().tolist()`. -/
def all_feasible (s : MAPElites) : List CandidateSolution :=
  (List.range s.bin_qnt.1).flatMap (fun i =>
    (List.range s.bin_qnt.2).flatMap (fun j => (s.bins i j)._feasible))

/-- The `(prev_best, current_best)` scan of `fitness_reward`
(map.py:74-80), folded over the feasible solutions of all bins. -/
def fitness_reward_scan (CS_MAX_AGE : ℤ)
    (feas : List CandidateSolution) : ℚ × ℚ :=
  feas.foldl (fun bests cs =>
    if cs.age = CS_MAX_AGE ∧ bests.1 < cs.c_fitness then (bests.1, cs.c_fitness)
    else if cs.age ≠ CS_MAX_AGE ∧ bests.1 < cs.c_fitness then
      (cs.c_fitness, bests.2)
    else bests) (0, 0)

/-- `fitness_reward` (map.py:65-82): scans all feasible solutions for the
previous and current best composite fitness, then returns
`fit_diff / prev_best` — an unguarded Python division (`pyDiv`). -/
def fitness_reward (CS_MAX_AGE : ℤ) (s : MAPElites) : Option ℚ :=
  let bests := fitness_reward_scan CS_MAX_AGE (all_feasible s)
  pyDiv (bests.2 - bests.1) bests.1

theorem fitness_reward_scan_fst_zero (CS_MAX_AGE : ℤ)
    (l : List CandidateSolution)
    (h : ∀ cs ∈ l, cs.age ≠ CS_MAX_AGE → cs.c_fitness ≤ 0) :
    (fitness_reward_scan CS_MAX_AGE l).1 = 0 := by
  unfold fitness_reward_scan
  suffices hgen : ∀ cur : ℚ,
      (l.foldl (fun bests cs =>
        if cs.age = CS_MAX_AGE ∧ bests.1 < cs.c_fitness then
          (bests.1, cs.c_fitness)
        else if cs.age ≠ CS_MAX_AGE ∧ bests.1 < cs.c_fitness then
          (cs.c_fitness, bests.2)
        else bests) ((0 : ℚ), cur)).1 = 0 by
    exact hgen 0
  induction l with
  | nil => intro cur; simp
  | cons hd tl ih =>
    intro cur
    have hhd := h hd (List.mem_cons_self hd tl)
    have htl : ∀ cs ∈ tl, cs.age ≠ CS_MAX_AGE → cs.c_fitness ≤ 0 :=
      fun cs hcs => h cs (List.mem_cons_of_mem hd hcs)
    simp only [List.foldl_cons]
    by_cases h1 : hd.age = CS_MAX_AGE ∧ (0 : ℚ) < hd.c_fitness
    · rw [if_pos h1]
      exact ih htl hd.c_fitness
    · rw [if_neg h1]
      by_cases h2 : hd.age ≠ CS_MAX_AGE ∧ (0 : ℚ) < hd.c_fitness
      · exact absurd h2.2 (not_lt.mpr (hhd h2.1))
      · rw [if_neg h2]
        exact ih htl cur

/-- C5: on every archive in which no feasible solution with age different
from `CS_MAX_AGE` has positive composite fitness (e.g. the state right
after initial-population generation, where `_assign_fitness` gives every
solution age `CS_MAX_AGE`), `prev_best` stays `0` and `fitness_reward`
divides by zero (raises `ZeroDivisionError`, modelled by `none`). -/
theorem fitness_reward_div_by_zero (CS_MAX_AGE : ℤ) (s : MAPElites)
    (h : ∀ cs ∈ all_feasible s, cs.age ≠ CS_MAX_AGE → cs.c_fitness ≤ 0) :
    (fitness_reward_scan CS_MAX_AGE (all_feasible s)).1 = 0 ∧
    fitness_reward CS_MAX_AGE s = none := by
  have hz := fitness_reward_scan_fst_zero CS_MAX_AGE (all_feasible s) h
  refine ⟨hz, ?_⟩
  unfold fitness_reward pyDiv
  simp [hz]

/-- A 1×1 archive holding one fresh (max-age) feasible elite with positive
fitness, as right after initialization. -/
def freshGridW : MAPElites :=
  { bin_sizes0 := [10], bin_sizes1 := [10], bin_qnt := (1, 1),
    bins := fun _ _ =>
      { _feasible := [{ string := "head", age := 5, c_fitness := 3 }] } }

/-- Witness for C5 at a concrete reachable archive. -/
theorem fitness_reward_div_by_zero_witness :
    (∀ cs ∈ all_feasible freshGridW, cs.age ≠ 5 → cs.c_fitness ≤ 0) ∧
    ((fitness_reward_scan 5 (all_feasible freshGridW)).1 = 0 ∧
      fitness_reward 5 freshGridW = none) :=
  ⟨by decide, fitness_reward_div_by_zero 5 freshGridW (by decide)⟩

/-- Whether a signed cell index is inside the grid
(`0 <= new_idx[0] < self.bins.shape[0] and 0 <= new_idx[1] <
self.bins.shape[1]`, map.py:663). -/
def in_shape (s : MAPElites) (p : ℤ × ℤ) : Bool :=
  0 ≤ p.1 && p.1 < (s.bin_qnt.1 : ℤ) && 0 ≤ p.2 && p.2 < (s.bin_qnt.2 : ℤ)

/-- The population read at an in-range cell:
`self.bins[new_idx]._feasible if pop == 'feasible' else
self.bins[new_idx]._infeasible` (map.py:664). -/
def pool_at (s : MAPElites) (pop : String) (p : ℤ × ℤ) :
    List CandidateSolution :=
  if pop = "feasible" then (s.bins p.1.toNat p.2.toNat)._feasible
  else (s.bins p.1.toNat p.2.toNat)._infeasible

/-- The inner offset loop of `MAPElites.seek_nearest_valid`
(map.py:661-670) for one inspected index: walks the shuffled offsets in
order; an in-range neighbour with a non-empty pool extends `new_pop` and
breaks; an in-range neighbour with an empty pool is appended to
`to_inspect` (the guard `if idx not in past_idxs` is always true in the
source, since `past_idxs` is reset to `[]` each outer iteration and never
appended to). -/
def seek_inner (s : MAPElites) (pop : String) (idx : ℤ × ℤ) :
    List (ℤ × ℤ) → List CandidateSolution × List (ℤ × ℤ)
  | [] => ([], [])
  | offset :: rest =>
    let new_idx := (idx.1 + offset.1, idx.2 + offset.2)
    if in_shape s new_idx then
      if pool_at s pop new_idx ≠ [] then (pool_at s pop new_idx, [])
      else
        let r := seek_inner s pop idx rest
        (r.1, new_idx :: r.2)
    else seek_inner s pop idx rest

/-- One iteration of the `while` body of `seek_nearest_valid`
(map.py:657-673): `new_pop` extensions and `to_inspect` entries are
accumulated over all currently inspected indices. -/
def seek_outer (s : MAPElites) (pop : String) (offsets : List (ℤ × ℤ))
    (inspecting : List (ℤ × ℤ)) :
    List CandidateSolution × List (ℤ × ℤ) :=
  inspecting.foldl (fun acc idx =>
    let r := seek_inner s pop idx offsets
    (acc.1 ++ r.1, acc.2 ++ r.2)) ([], [])

/-- `MAPElites.seek_nearest_valid` (map.py:640-675) with an explicit fuel
bound on the number of `while` iterations: `none` means the loop has not
left the `while` within `fuel` iterations; `some` is the returned list
(`new_pop` when non-empty, the empty list after the `to_inspect == []`
break).  `offsets` is the shuffled 8-neighbour offset list. -/
def seek_nearest_valid (s : MAPElites) (pop : String)
    (offsets : List (ℤ × ℤ)) :
    ℕ → List (ℤ × ℤ) → Option (List CandidateSolution)
  | 0, _ => none
  | fuel + 1, inspecting =>
    let r := seek_outer s pop offsets inspecting
    if r.1 ≠ [] then some r.1
    else if r.2 = [] then some []
    else seek_nearest_valid s pop offsets fuel r.2

theorem seek_inner_all_empty (s : MAPElites) (pop : String) (idx : ℤ × ℤ)
    (offsets : List (ℤ × ℤ))
    (hempty : ∀ q : ℤ × ℤ, in_shape s q = true → pool_at s pop q = []) :
    (seek_inner s pop idx offsets).1 = [] ∧
    (∀ q ∈ (seek_inner s pop idx offsets).2, in_shape s q = true) ∧
    ((seek_inner s pop idx offsets).2 = [] ↔
      ∀ o ∈ offsets, in_shape s (idx.1 + o.1, idx.2 + o.2) = false) := by
  induction offsets with
  | nil => simp [seek_inner]
  | cons o rest ih =>
    by_cases hin : in_shape s (idx.1 + o.1, idx.2 + o.2) = true
    · have hpool := hempty _ hin
      simp only [seek_inner, hin, if_true, hpool, ne_eq, not_true_eq_false,
        if_false]
      refine ⟨ih.1, ?_, ?_⟩
      · intro q hq
        rcases List.mem_cons.mp hq with rfl | hq
        · exact hin
        · exact ih.2.1 q hq
      · simp [hin]
    · have hin' : in_shape s (idx.1 + o.1, idx.2 + o.2) = false :=
        Bool.not_eq_true _ ▸ (by simpa using hin)
      simp only [seek_inner, hin', Bool.false_eq_true, if_false]
      refine ⟨ih.1, ih.2.1, ?_⟩
      rw [ih.2.2]
      constructor
      · intro hall o' ho'
        rcases List.mem_cons.mp ho' with rfl | ho'
        · exact hin'
        · exact hall o' ho'
      · intro hall o' ho'
        exact hall o' (List.mem_cons_of_mem o ho')

theorem seek_outer_eq_flatMap (s : MAPElites) (pop : String)
    (offsets : List (ℤ × ℤ)) (inspecting : List (ℤ × ℤ)) :
    seek_outer s pop offsets inspecting =
      (inspecting.flatMap (fun idx => (seek_inner s pop idx offsets).1),
       inspecting.flatMap (fun idx => (seek_inner s pop idx offsets).2)) := by
  unfold seek_outer
  suffices hgen : ∀ acc : List CandidateSolution × List (ℤ × ℤ),
      inspecting.foldl (fun acc idx =>
        ((acc.1 ++ (seek_inner s pop idx offsets).1,
          acc.2 ++ (seek_inner s pop idx offsets).2) :
          List CandidateSolution × List (ℤ × ℤ))) acc =
      (acc.1 ++ inspecting.flatMap (fun idx => (seek_inner s pop idx offsets).1),
       acc.2 ++ inspecting.flatMap (fun idx => (seek_inner s pop idx offsets).2)) by
    simpa using hgen ([], [])
  induction inspecting with
  | nil => intro acc; simp
  | cons p rest ih =>
    intro acc
    simp only [List.foldl_cons, List.flatMap_cons, ih, List.append_assoc]

theorem mem_all_idxs_iff (s : MAPElites) (p : ℤ × ℤ) :
    p ∈ all_idxs s ↔ in_shape s p = true := by
  obtain ⟨a, b⟩ := p
  unfold all_idxs in_shape
  simp only [List.mem_flatMap, List.mem_map, List.mem_range, Prod.mk.injEq,
    Bool.and_eq_true, decide_eq_true_eq]
  constructor
  · rintro ⟨i, hi, j, hj, rfl, rfl⟩
    refine ⟨⟨⟨?_, ?_⟩, ?_⟩, ?_⟩ <;> omega
  · rintro ⟨⟨⟨h1, h2⟩, h3⟩, h4⟩
    exact ⟨a.toNat, by omega, b.toNat, by omega, by omega, by omega⟩

theorem seek_outer_all_empty (s : MAPElites) (pop : String)
    (offsets : List (ℤ × ℤ)) (inspecting : List (ℤ × ℤ))
    (hempty : ∀ q : ℤ × ℤ, in_shape s q = true → pool_at s pop q = []) :
    (seek_outer s pop offsets inspecting).1 = [] ∧
    (∀ q ∈ (seek_outer s pop offsets inspecting).2, in_shape s q = true) ∧
    (∀ p ∈ inspecting,
      (∃ o ∈ offsets, in_shape s (p.1 + o.1, p.2 + o.2) = true) →
      (seek_outer s pop offsets inspecting).2 ≠ []) := by
  rw [seek_outer_eq_flatMap]
  refine ⟨?_, ?_, ?_⟩
  · simp only [List.flatMap_eq_nil_iff]
    intro idx _
    exact (seek_inner_all_empty s pop idx offsets hempty).1
  · intro q hq
    simp only [List.mem_flatMap] at hq
    obtain ⟨idx, _, hq⟩ := hq
    exact (seek_inner_all_empty s pop idx offsets hempty).2.1 q hq
  · rintro p hp ⟨o, ho, hin⟩ hnil
    simp only [List.flatMap_eq_nil_iff] at hnil
    have hfalse :=
      (seek_inner_all_empty s pop p offsets hempty).2.2.mp (hnil _ hp) o ho
    rw [hin] at hfalse
    exact Bool.noConfusion hfalse

/-- C6: on any grid in which every in-range infeasible population is empty
while every in-range cell has at least one in-range 8-neighbour (true for
any grid with more than one bin and a full shuffled offset list), the
`while` loop of `seek_nearest_valid` started from any non-empty list of
in-range bin indices never makes progress: for every fuel bound it is still
running (`past_idxs` is never added to, so `to_inspect` never empties). -/
theorem seek_nearest_valid_no_termination (s : MAPElites)
    (offsets : List (ℤ × ℤ)) (fuel : ℕ) (inspecting : List (ℤ × ℤ))
    (hpools : ∀ q ∈ all_idxs s, pool_at s "infeasible" q = [])
    (hins : inspecting ≠ [])
    (hinr : ∀ p ∈ inspecting, p ∈ all_idxs s)
    (hnbr : ∀ p ∈ all_idxs s, ∃ o ∈ offsets,
      (p.1 + o.1, p.2 + o.2) ∈ all_idxs s) :
    seek_nearest_valid s "infeasible" offsets fuel inspecting = none := by
  induction fuel generalizing inspecting with
  | zero => rfl
  | succ fuel ih =>
    have hempty : ∀ q : ℤ × ℤ, in_shape s q = true →
        pool_at s "infeasible" q = [] := by
      intro q hq
      exact hpools q ((mem_all_idxs_iff s q).mpr hq)
    obtain ⟨h1, h2, h3⟩ :=
      seek_outer_all_empty s "infeasible" offsets inspecting hempty
    obtain ⟨p0, hp0⟩ := List.exists_mem_of_ne_nil inspecting hins
    have hp0r := hinr p0 hp0
    obtain ⟨o0, ho0, hno0⟩ := hnbr p0 hp0r
    have hne : (seek_outer s "infeasible" offsets inspecting).2 ≠ [] :=
      h3 p0 hp0 ⟨o0, ho0, (mem_all_idxs_iff s _).mp hno0⟩
    show (let r := seek_outer s "infeasible" offsets inspecting
      if r.1 ≠ [] then some r.1
      else if r.2 = [] then some []
      else seek_nearest_valid s "infeasible" offsets fuel r.2) = none
    simp only [h1, ne_eq, not_true_eq_false, if_false, hne, if_neg hne]
    exact ih _ hne (fun p hp => (mem_all_idxs_iff s p).mpr (h2 p hp)) 

/-- A 1×2 archive in which every infeasible population is empty. -/
def emptyPairGridW : MAPElites :=
  { bin_sizes0 := [5], bin_sizes1 := [5, 5], bin_qnt := (1, 2),
    bins := fun _ _ => {} }

/-- The 8-connected offset list of `seek_nearest_valid` (map.py:654), in
source order (one possible outcome of `np.random.shuffle`). -/
def offsetsW : List (ℤ × ℤ) :=
  [(-1, -1), (-1, 0), (-1, 1), (0, -1), (0, 1), (1, -1), (1, 0), (1, 1)]

/-- Witness for C6: on the concrete 1×2 all-empty archive, starting from
bin index `(0, 0)`, the search has still not terminated after 100 loop
iterations. -/
theorem seek_nearest_valid_no_termination_witness :
    (∀ q ∈ all_idxs emptyPairGridW,
      pool_at emptyPairGridW "infeasible" q = []) ∧
    ([((0 : ℤ), (0 : ℤ))] ≠ ([] : List (ℤ × ℤ))) ∧
    (∀ p ∈ [((0 : ℤ), (0 : ℤ))], p ∈ all_idxs emptyPairGridW) ∧
    (∀ p ∈ all_idxs emptyPairGridW, ∃ o ∈ offsetsW,
      (p.1 + o.1, p.2 + o.2) ∈ all_idxs emptyPairGridW) ∧
    seek_nearest_valid emptyPairGridW "infeasible" offsetsW 100
      [((0 : ℤ), (0 : ℤ))] = none :=
  ⟨by decide, by decide, by decide, by decide,
   seek_nearest_valid_no_termination emptyPairGridW offsetsW 100
     [((0 : ℤ), (0 : ℤ))] (by decide) (by decide) (by decide) (by decide)⟩

/-- `np.cumsum`: inclusive prefix sums. -/
def cumsum : List ℚ → List ℚ
  | [] => []
  | a :: t => a :: (cumsum t).map (fun v => a + v)

/-- The cumulative bin-boundary table of `_update_bins` (map.py:364-365):
`np.cumsum([0] + self.bin_sizes[k][:-1]) + self.b_descs[k].bounds[0]`. -/
def bin_edges (sizes : List ℚ) (lower : ℚ) : List ℚ :=
  (cumsum (0 :: sizes.dropLast)).map (fun v => v + lower)

/-- `np.digitize(x, bins=edges, right=False)` for the monotone edge lists
built by `bin_edges` from positive bin sizes: the number of edges `≤ x`. -/
def digitize (x : ℚ) (edges : List ℚ) : ℤ :=
  (edges.countP (fun e => decide (e ≤ x)) : ℤ)

/-- Python/numpy signed list indexing: a negative index addresses from the
end. -/
def pyIndex (n : ℕ) (i : ℤ) : ℤ := if i < 0 then i + n else i

/-- Modelled from the spec: `MAPBin.insert_cs` (bin.py is not in src/);
§4.3: "append `cs` to the feasible or infeasible list of that bin depending
on `is_feasible`; deduplicate by identity (string equality) so inserting an
already-present solution is a no-op". -/
def MAPBin.insert_cs (b : MAPBin) (cs : CandidateSolution) : MAPBin :=
  if cs.is_feasible then
    if in_pop cs b._feasible then b
    else { b with _feasible := b._feasible ++ [cs] }
  else
    if in_pop cs b._infeasible then b
    else { b with _infeasible := b._infeasible ++ [cs] }

/-- Modelled from the spec: the per-population body of `MAPBin.remove_old`
(bin.py is not in src/); §4.3: "each bin removes all non-newest (`age`
below maximum) individuals down to the configured per-bin cap, retaining
the highest-composite-fitness individuals for feasible (max) and the
lowest for infeasible (min) unless surrogate-driven ... Ties broken by
insertion order (earliest retained)" — a stable sort of the non-newest by
fitness, keeping the cap remainder. -/
def remove_old_pop (cap : ℕ) (max_age : ℤ) (maximize : Bool)
    (pop : List CandidateSolution) : List CandidateSolution :=
  if pop.length ≤ cap then pop
  else
    let newest := pop.filter (fun cs => cs.age == max_age)
    let old := pop.filter (fun cs => cs.age != max_age)
    let sorted := old.mergeSort (fun a b =>
      if maximize then decide (b.c_fitness ≤ a.c_fitness)
      else decide (a.c_fitness ≤ b.c_fitness))
    newest ++ sorted.take (cap - newest.length)

/-- Modelled from the spec: `MAPBin.remove_old` (bin.py is not in src/),
applied to both populations; the infeasible retention direction flips when
a surrogate estimator drives the infeasible fitness (§4.3). -/
def MAPBin.remove_old (b : MAPBin) (cap : ℕ) (max_age : ℤ)
    (infeas_maximize : Bool) : MAPBin :=
  { b with
    _feasible := remove_old_pop cap max_age true b._feasible,
    _infeasible := remove_old_pop cap max_age infeas_maximize b._infeasible }

/-- One insertion of the `_update_bins` loop (map.py:367-371): digitize the
two behavior descriptors against the boundary tables and insert into the
addressed bin (numpy accepts a negative index by wrapping, `pyIndex`). -/
def grid_insert (s : MAPElites) (bc0 bc1 : List ℚ)
    (cs : CandidateSolution) : MAPElites :=
  let i := pyIndex s.bin_qnt.1 (digitize cs.b_descs.1 bc0 - 1)
  let j := pyIndex s.bin_qnt.2 (digitize cs.b_descs.2 bc1 - 1)
  { s with bins := fun a b =>
      if a = i.toNat ∧ b = j.toNat then (s.bins a b).insert_cs cs
      else s.bins a b }

/-- `MAPElites._update_bins` (map.py:357-374): compute the boundary tables,
insert every solution, then — when aging is enabled — let every bin remove
its old individuals. -/
def _update_bins (BIN_POP_SIZE : ℕ) (CS_MAX_AGE : ℤ)
    (infeas_maximize : Bool) (s : MAPElites)
    (lcs : List CandidateSolution) : MAPElites :=
  let bc0 := bin_edges s.bin_sizes0 s.lb0
  let bc1 := bin_edges s.bin_sizes1 s.lb1
  let s2 := lcs.foldl (fun t cs => grid_insert t bc0 bc1 cs) s
  if s.allow_aging then
    { s2 with bins := fun a b =>
        (s2.bins a b).remove_old BIN_POP_SIZE CS_MAX_AGE infeas_maximize }
  else s2

/-- Every archived solution, in the collection order of
`subdivide_range` (map.py:322-324): row-major over bins, feasible then
infeasible. -/
def all_solutions (s : MAPElites) : List CandidateSolution :=
  (List.range s.bin_qnt.1).flatMap (fun (i : ℕ) =>
    (List.range s.bin_qnt.2).flatMap (fun (j : ℕ) =>
      (s.bins i j)._feasible ++ (s.bins i j)._infeasible))

/-- `MAPElites.subdivide_range` (map.py:312-355): collect every archived
solution, halve the triggered bin's sizes on both axes inserting the new
half-sizes right after the triggered indices, grow the bin counts by one on
each axis, build a fresh grid (carrying the `new_elite` markers over
positionally), and re-insert everything through `_update_bins`.  (The
`HumanPrefMatrixEmitter` resolution hook at map.py:354-355 concerns the
emitter, not the archive, and is not modelled.) -/
def subdivide_range (BIN_POP_SIZE : ℕ) (CS_MAX_AGE : ℤ)
    (infeas_maximize : Bool) (s : MAPElites) (bin_idx : ℕ × ℕ) :
    MAPElites :=
  let i := bin_idx.1
  let j := bin_idx.2
  let all_cs := all_solutions s
  let v_i := s.bin_sizes0.getD i 0
  let v_j := s.bin_sizes1.getD j 0
  let sizes0 := (s.bin_sizes0.set i (v_i / 2)).insertIdx (i + 1) (v_i / 2)
  let sizes1 := (s.bin_sizes1.set j (v_j / 2)).insertIdx (j + 1) (v_j / 2)
  let qnt := (s.bin_qnt.1 + 1, s.bin_qnt.2 + 1)
  let new_bins : ℕ → ℕ → MAPBin := fun m n =>
    let xy : ℕ × ℕ :=
      if m = i + 1 ∧ n = j + 1 then (i, j)
      else (if m ≤ i then m else m - 1, if n ≤ j then n else n - 1)
    { _feasible := [], _infeasible := [],
      new_elite_feas := (s.bins xy.1 xy.2).new_elite_feas,
      new_elite_infeas := (s.bins xy.1 xy.2).new_elite_infeas }
  let s2 := { s with bin_sizes0 := sizes0, bin_sizes1 := sizes1,
                     bin_qnt := qnt, bins := new_bins }
  _update_bins BIN_POP_SIZE CS_MAX_AGE infeas_maximize s2 all_cs

/-- The total number of bins of the archive grid. -/
def bin_count (s : MAPElites) : ℕ := s.bin_qnt.1 * s.bin_qnt.2

theorem flatMap_congr_mem {α β : Type} (l : List α) (f g : α → List β)
    (h : ∀ a ∈ l, f a = g a) : l.flatMap f = l.flatMap g := by
  induction l with
  | nil => rfl
  | cons hd tl ih =>
    simp only [List.flatMap_cons]
    rw [h hd (List.mem_cons_self hd tl),
      ih (fun a ha => h a (List.mem_cons_of_mem hd ha))]

theorem flatMap_range_perm {α : Type} (m i0 : ℕ) (hi : i0 < m)
    (f g : ℕ → List α) (x : α)
    (hne : ∀ a, a ≠ i0 → g a = f a) (hg : (g i0).Perm (x :: f i0)) :
    ((List.range m).flatMap g).Perm (x :: (List.range m).flatMap f) := by
  induction m with
  | zero => omega
  | succ k ih =>
    rw [List.range_succ, List.flatMap_append, List.flatMap_append]
    simp only [List.flatMap_cons, List.flatMap_nil, List.append_nil]
    by_cases hk : i0 = k
    · subst hk
      have hfg : (List.range i0).flatMap g = (List.range i0).flatMap f :=
        flatMap_congr_mem _ _ _ (fun a ha =>
          hne a (Nat.ne_of_lt (List.mem_range.mp ha)))
      rw [hfg]
      exact (hg.append_left _).trans List.perm_middle
    · have hik : i0 < k := by omega
      have hgk : g k = f k := hne k (fun hc => hk hc.symm)
      rw [hgk]
      exact (ih hik).append_right _

theorem cumsum_length (l : List ℚ) : (cumsum l).length = l.length := by
  induction l with
  | nil => rfl
  | cons a t ih => simp [cumsum, ih]

theorem bin_edges_length (sizes : List ℚ) (lower : ℚ) (h : sizes ≠ []) :
    (bin_edges sizes lower).length = sizes.length := by
  unfold bin_edges
  rw [List.length_map, cumsum_length, List.length_cons,
    List.length_dropLast]
  have : 1 ≤ sizes.length := List.length_pos.mpr h
  omega

theorem digitize_le_length (x : ℚ) (edges : List ℚ) :
    digitize x edges ≤ (edges.length : ℤ) := by
  unfold digitize
  exact_mod_cast List.countP_le_length _

theorem digitize_pos (x lower : ℚ) (sizes : List ℚ) (h : lower ≤ x) :
    1 ≤ digitize x (bin_edges sizes lower) := by
  unfold digitize bin_edges
  have : cumsum (0 :: sizes.dropLast) =
      0 :: (cumsum sizes.dropLast).map (fun v => 0 + v) := rfl
  rw [this]
  simp only [List.map_cons, List.countP_cons]
  have hzero : (decide ((0 : ℚ) + lower ≤ x)) = true := by
    simp only [zero_add, decide_eq_true_eq]
    exact h
  rw [hzero]
  simp only [if_true]
  omega

theorem grid_insert_fields (s : MAPElites) (bc0 bc1 : List ℚ)
    (cs : CandidateSolution) :
    (grid_insert s bc0 bc1 cs).bin_sizes0 = s.bin_sizes0 ∧
    (grid_insert s bc0 bc1 cs).bin_sizes1 = s.bin_sizes1 ∧
    (grid_insert s bc0 bc1 cs).bin_qnt = s.bin_qnt ∧
    (grid_insert s bc0 bc1 cs).lb0 = s.lb0 ∧
    (grid_insert s bc0 bc1 cs).lb1 = s.lb1 ∧
    (grid_insert s bc0 bc1 cs).allow_aging = s.allow_aging :=
  ⟨rfl, rfl, rfl, rfl, rfl, rfl⟩

theorem insert_fold_fields (bc0 bc1 : List ℚ) (lcs : List CandidateSolution)
    (s : MAPElites) :
    (lcs.foldl (fun t cs => grid_insert t bc0 bc1 cs) s).bin_sizes0
        = s.bin_sizes0 ∧
    (lcs.foldl (fun t cs => grid_insert t bc0 bc1 cs) s).bin_sizes1
        = s.bin_sizes1 ∧
    (lcs.foldl (fun t cs => grid_insert t bc0 bc1 cs) s).bin_qnt
        = s.bin_qnt ∧
    (lcs.foldl (fun t cs => grid_insert t bc0 bc1 cs) s).lb0 = s.lb0 ∧
    (lcs.foldl (fun t cs => grid_insert t bc0 bc1 cs) s).lb1 = s.lb1 ∧
    (lcs.foldl (fun t cs => grid_insert t bc0 bc1 cs) s).allow_aging
        = s.allow_aging := by
  induction lcs generalizing s with
  | nil => exact ⟨rfl, rfl, rfl, rfl, rfl, rfl⟩
  | cons hd tl ih =>
    simp only [List.foldl_cons]
    exact ih (grid_insert s bc0 bc1 hd)

theorem update_bins_fields (BIN_POP_SIZE : ℕ) (CS_MAX_AGE : ℤ)
    (infeas_maximize : Bool) (s : MAPElites)
    (lcs : List CandidateSolution) :
    (_update_bins BIN_POP_SIZE CS_MAX_AGE infeas_maximize s lcs).bin_sizes0
        = s.bin_sizes0 ∧
    (_update_bins BIN_POP_SIZE CS_MAX_AGE infeas_maximize s lcs).bin_sizes1
        = s.bin_sizes1 ∧
    (_update_bins BIN_POP_SIZE CS_MAX_AGE infeas_maximize s lcs).bin_qnt
        = s.bin_qnt := by
  unfold _update_bins
  obtain ⟨h0, h1, h2, _, _, _⟩ := insert_fold_fields
    (bin_edges s.bin_sizes0 s.lb0) (bin_edges s.bin_sizes1 s.lb1) lcs s
  by_cases ha : s.allow_aging <;> simp [ha, h0, h1, h2]

theorem mem_all_solutions_of_mem_bin (s : MAPElites) (i j : ℕ)
    (hi : i < s.bin_qnt.1) (hj : j < s.bin_qnt.2) (cs : CandidateSolution)
    (h : cs ∈ (s.bins i j)._feasible ++ (s.bins i j)._infeasible) :
    cs ∈ all_solutions s := by
  unfold all_solutions
  rw [List.mem_flatMap]
  exact ⟨i, List.mem_range.mpr hi, by
    rw [List.mem_flatMap]
    exact ⟨j, List.mem_range.mpr hj, h⟩⟩

theorem all_solutions_grid_insert (s : MAPElites) (bc0 bc1 : List ℚ)
    (cs : CandidateSolution)
    (hlen0 : bc0.length = s.bin_qnt.1) (hlen1 : bc1.length = s.bin_qnt.2)
    (hd0 : 1 ≤ digitize cs.b_descs.1 bc0)
    (hd1 : 1 ≤ digitize cs.b_descs.2 bc1)
    (hfresh : ∀ other ∈ all_solutions s, other.string ≠ cs.string) :
    (all_solutions (grid_insert s bc0 bc1 cs)).Perm
      (cs :: all_solutions s) := by
  have hle0 := digitize_le_length cs.b_descs.1 bc0
  have hle1 := digitize_le_length cs.b_descs.2 bc1
  rw [hlen0] at hle0
  rw [hlen1] at hle1
  have hpy0 : pyIndex s.bin_qnt.1 (digitize cs.b_descs.1 bc0 - 1)
      = digitize cs.b_descs.1 bc0 - 1 := by
    unfold pyIndex
    rw [if_neg]
    omega
  have hpy1 : pyIndex s.bin_qnt.2 (digitize cs.b_descs.2 bc1 - 1)
      = digitize cs.b_descs.2 bc1 - 1 := by
    unfold pyIndex
    rw [if_neg]
    omega
  have hi0lt : (pyIndex s.bin_qnt.1 (digitize cs.b_descs.1 bc0 - 1)).toNat
      < s.bin_qnt.1 := by
    rw [hpy0]
    omega
  have hj0lt : (pyIndex s.bin_qnt.2 (digitize cs.b_descs.2 bc1 - 1)).toNat
      < s.bin_qnt.2 := by
    rw [hpy1]
    omega
  simp only [grid_insert, all_solutions]
  apply flatMap_range_perm s.bin_qnt.1
    (pyIndex s.bin_qnt.1 (digitize cs.b_descs.1 bc0 - 1)).toNat hi0lt
  · intro a ha
    apply flatMap_congr_mem
    intro b _
    rw [if_neg (fun hc => ha hc.1)]
  · apply flatMap_range_perm s.bin_qnt.2
      (pyIndex s.bin_qnt.2 (digitize cs.b_descs.2 bc1 - 1)).toNat hj0lt
    · intro b hb
      rw [if_neg (fun hc => hb hc.2)]
    · rw [if_pos ⟨rfl, rfl⟩]
      have hmem : ∀ o ∈ (s.bins
            (pyIndex s.bin_qnt.1 (digitize cs.b_descs.1 bc0 - 1)).toNat
            (pyIndex s.bin_qnt.2 (digitize cs.b_descs.2 bc1 - 1)).toNat)._feasible ++
          (s.bins
            (pyIndex s.bin_qnt.1 (digitize cs.b_descs.1 bc0 - 1)).toNat
            (pyIndex s.bin_qnt.2 (digitize cs.b_descs.2 bc1 - 1)).toNat)._infeasible,
          o.string ≠ cs.string := by
        intro o ho
        exact hfresh o (mem_all_solutions_of_mem_bin s _ _ hi0lt hj0lt o ho)
      unfold MAPBin.insert_cs
      by_cases hf : cs.is_feasible
      · have hnf : in_pop cs (s.bins
            (pyIndex s.bin_qnt.1 (digitize cs.b_descs.1 bc0 - 1)).toNat
            (pyIndex s.bin_qnt.2 (digitize cs.b_descs.2 bc1 - 1)).toNat)._feasible
            = false := by
          rw [Bool.eq_false_iff]
          intro hcontra
          unfold in_pop at hcontra
          rw [List.any_eq_true] at hcontra
          obtain ⟨o, ho, hoeq⟩ := hcontra
          exact hmem o (List.mem_append_left _ ho) (by simpa using hoeq)
        simp only [hf, if_true, hnf, Bool.false_eq_true, if_false]
        rw [List.append_assoc]
        exact List.perm_middle
      · have hnf : in_pop cs (s.bins
            (pyIndex s.bin_qnt.1 (digitize cs.b_descs.1 bc0 - 1)).toNat
            (pyIndex s.bin_qnt.2 (digitize cs.b_descs.2 bc1 - 1)).toNat)._infeasible
            = false := by
          rw [Bool.eq_false_iff]
          intro hcontra
          unfold in_pop at hcontra
          rw [List.any_eq_true] at hcontra
          obtain ⟨o, ho, hoeq⟩ := hcontra
          exact hmem o (List.mem_append_right _ ho) (by simpa using hoeq)
        simp only [hf, Bool.false_eq_true, if_false, hnf]
        exact (List.Perm.append_left _
          (List.perm_append_singleton cs _)).trans List.perm_middle

theorem all_solutions_insert_fold (bc0 bc1 : List ℚ)
    (lcs : List CandidateSolution) (s : MAPElites)
    (hlen0 : bc0.length = s.bin_qnt.1) (hlen1 : bc1.length = s.bin_qnt.2)
    (hd0 : ∀ cs ∈ lcs, 1 ≤ digitize cs.b_descs.1 bc0)
    (hd1 : ∀ cs ∈ lcs, 1 ≤ digitize cs.b_descs.2 bc1)
    (hnodup : ((all_solutions s ++ lcs).map (fun c => c.string)).Nodup) :
    (all_solutions (lcs.foldl (fun t c => grid_insert t bc0 bc1 c) s)).Perm
      (all_solutions s ++ lcs) := by
  induction lcs generalizing s with
  | nil => simp
  | cons cs rest ih =>
    simp only [List.foldl_cons]
    have hfresh : ∀ other ∈ all_solutions s, other.string ≠ cs.string := by
      intro o ho heq
      rw [List.map_append, List.nodup_append] at hnodup
      exact hnodup.2.2 (List.mem_map_of_mem _ ho)
        (by rw [heq]; exact List.mem_map_of_mem _ (List.mem_cons_self cs rest))
    have hperm1 := all_solutions_grid_insert s bc0 bc1 cs hlen0 hlen1
      (hd0 cs (List.mem_cons_self cs rest)) (hd1 cs (List.mem_cons_self cs rest))
      hfresh
    obtain ⟨_, _, hfq, _, _, _⟩ := grid_insert_fields s bc0 bc1 cs
    have hnodup' : ((all_solutions (grid_insert s bc0 bc1 cs) ++ rest).map
        (fun c => c.string)).Nodup := by
      have hpermmap : ((all_solutions (grid_insert s bc0 bc1 cs) ++ rest).map
          (fun c => c.string)).Perm
          ((all_solutions s ++ cs :: rest).map (fun c => c.string)) :=
        List.Perm.map _ ((hperm1.append_right rest).trans List.perm_middle.symm)
      exact hpermmap.nodup_iff.mpr hnodup
    have ihapp := ih (grid_insert s bc0 bc1 cs)
      (by rw [hfq]; exact hlen0) (by rw [hfq]; exact hlen1)
      (fun c hc => hd0 c (List.mem_cons_of_mem cs hc))
      (fun c hc => hd1 c (List.mem_cons_of_mem cs hc))
      hnodup'
    exact ihapp.trans ((hperm1.append_right rest).trans List.perm_middle.symm)

theorem remove_old_pop_of_max_age (cap : ℕ) (max_age : ℤ) (maximize : Bool)
    (pop : List CandidateSolution) (h : ∀ cs ∈ pop, cs.age = max_age) :
    remove_old_pop cap max_age maximize pop = pop := by
  unfold remove_old_pop
  by_cases hlen : pop.length ≤ cap
  · rw [if_pos hlen]
  · rw [if_neg hlen]
    have hnew : pop.filter (fun cs => cs.age == max_age) = pop :=
      List.filter_eq_self.mpr (fun cs hcs => by simp [h cs hcs])
    have hold : pop.filter (fun cs => cs.age != max_age) = [] :=
      List.filter_eq_nil_iff.mpr (fun cs hcs => by simp [h cs hcs])
    simp only [hnew, hold, List.mergeSort_nil, List.take_nil,
      List.append_nil]

theorem remove_old_of_max_age (b : MAPBin) (cap : ℕ) (max_age : ℤ)
    (infeas_maximize : Bool)
    (hf : ∀ cs ∈ b._feasible, cs.age = max_age)
    (hi : ∀ cs ∈ b._infeasible, cs.age = max_age) :
    b.remove_old cap max_age infeas_maximize = b := by
  unfold MAPBin.remove_old
  rw [remove_old_pop_of_max_age cap max_age true b._feasible hf,
    remove_old_pop_of_max_age cap max_age infeas_maximize b._infeasible hi]

theorem all_solutions_map_bins (t : MAPElites) (newbins : ℕ → ℕ → MAPBin)
    (h : ∀ a b, a < t.bin_qnt.1 → b < t.bin_qnt.2 → newbins a b = t.bins a b) :
    all_solutions { t with bins := newbins } = all_solutions t := by
  unfold all_solutions
  apply flatMap_congr_mem
  intro a hamem
  apply flatMap_congr_mem
  intro b hbmem
  have ha' : a < t.bin_qnt.1 := List.mem_range.mp hamem
  have hb' : b < t.bin_qnt.2 := List.mem_range.mp hbmem
  exact congrArg (fun bb => bb._feasible ++ bb._infeasible) (h a b ha' hb')

theorem all_solutions_update_bins (BIN_POP_SIZE : ℕ) (CS_MAX_AGE : ℤ)
    (infeas_maximize : Bool) (s : MAPElites) (lcs : List CandidateSolution)
    (hlen0 : s.bin_sizes0.length = s.bin_qnt.1)
    (hlen1 : s.bin_sizes1.length = s.bin_qnt.2)
    (hs0 : s.bin_sizes0 ≠ []) (hs1 : s.bin_sizes1 ≠ [])
    (hempty : all_solutions s = [])
    (hlb : ∀ cs ∈ lcs, s.lb0 ≤ cs.b_descs.1 ∧ s.lb1 ≤ cs.b_descs.2)
    (hage : ∀ cs ∈ lcs, cs.age = CS_MAX_AGE)
    (hnodup : (lcs.map (fun c => c.string)).Nodup) :
    (all_solutions
      (_update_bins BIN_POP_SIZE CS_MAX_AGE infeas_maximize s lcs)).Perm
      lcs := by
  have hbc0 : (bin_edges s.bin_sizes0 s.lb0).length = s.bin_qnt.1 := by
    rw [bin_edges_length _ _ hs0]
    exact hlen0
  have hbc1 : (bin_edges s.bin_sizes1 s.lb1).length = s.bin_qnt.2 := by
    rw [bin_edges_length _ _ hs1]
    exact hlen1
  have hfold := all_solutions_insert_fold (bin_edges s.bin_sizes0 s.lb0)
    (bin_edges s.bin_sizes1 s.lb1) lcs s hbc0 hbc1
    (fun c hc => digitize_pos _ _ _ (hlb c hc).1)
    (fun c hc => digitize_pos _ _ _ (hlb c hc).2)
    (by rw [hempty]; simpa using hnodup)
  rw [hempty, List.nil_append] at hfold
  have hqf := (insert_fold_fields (bin_edges s.bin_sizes0 s.lb0)
    (bin_edges s.bin_sizes1 s.lb1) lcs s).2.2.1
  simp only [_update_bins]
  by_cases ha : s.allow_aging
  · rw [if_pos ha]
    have hcells := all_solutions_map_bins
      (lcs.foldl (fun t c => grid_insert t (bin_edges s.bin_sizes0 s.lb0)
        (bin_edges s.bin_sizes1 s.lb1) c) s)
      (fun a b => ((lcs.foldl (fun t c =>
          grid_insert t (bin_edges s.bin_sizes0 s.lb0)
            (bin_edges s.bin_sizes1 s.lb1) c) s).bins a b).remove_old
        BIN_POP_SIZE CS_MAX_AGE infeas_maximize)
      (fun a b ha' hb' => remove_old_of_max_age _ _ _ _
        (fun cs hcs => hage cs (hfold.mem_iff.mp
          (mem_all_solutions_of_mem_bin _ a b ha' hb' cs
            (List.mem_append_left _ hcs))))
        (fun cs hcs => hage cs (hfold.mem_iff.mp
          (mem_all_solutions_of_mem_bin _ a b ha' hb' cs
            (List.mem_append_right _ hcs)))))
    exact hcells ▸ hfold
  · rw [if_neg ha]
    exact hfold

theorem bin_count_le_subdivide (BIN_POP_SIZE : ℕ) (CS_MAX_AGE : ℤ)
    (infeas_maximize : Bool) (t : MAPElites) (p : ℕ × ℕ) :
    bin_count t ≤ bin_count
      (subdivide_range BIN_POP_SIZE CS_MAX_AGE infeas_maximize t p) := by
  unfold bin_count
  simp only [subdivide_range]
  rw [(update_bins_fields BIN_POP_SIZE CS_MAX_AGE infeas_maximize _ _).2.2]
  exact Nat.mul_le_mul (Nat.le_succ _) (Nat.le_succ _)

theorem bin_count_le_subdivide_fold (BIN_POP_SIZE : ℕ) (CS_MAX_AGE : ℤ)
    (infeas_maximize : Bool) (idxs : List (ℕ × ℕ)) (t : MAPElites) :
    bin_count t ≤ bin_count (idxs.foldl
      (fun u p => subdivide_range BIN_POP_SIZE CS_MAX_AGE infeas_maximize u p)
      t) := by
  induction idxs generalizing t with
  | nil => exact le_refl _
  | cons p rest ih =>
    simp only [List.foldl_cons]
    exact le_trans
      (bin_count_le_subdivide BIN_POP_SIZE CS_MAX_AGE infeas_maximize t p)
      (ih _)

/-- C7: `subdivide_range` halves the triggered bin's size on both behavior
axes and inserts the half-sizes right after the triggered indices, turns
the (m, n) grid into an (m+1, n+1) grid, re-inserts every previously
archived solution into the new grid (here: the archive contents after the
call are a permutation of the contents before it, given fresh max-age
solutions with distinct strings and in-bound descriptors), and the total
bin count is non-decreasing across any sequence of subdivision steps. -/
theorem subdivide_range_spec (BIN_POP_SIZE : ℕ) (CS_MAX_AGE : ℤ)
    (infeas_maximize : Bool) (s : MAPElites) (i j : ℕ)
    (idxs : List (ℕ × ℕ))
    (hlen0 : s.bin_sizes0.length = s.bin_qnt.1)
    (hlen1 : s.bin_sizes1.length = s.bin_qnt.2)
    (hi : i < s.bin_qnt.1) (hj : j < s.bin_qnt.2)
    (hage : ∀ cs ∈ all_solutions s, cs.age = CS_MAX_AGE)
    (hnodup : ((all_solutions s).map (fun c => c.string)).Nodup)
    (hlb : ∀ cs ∈ all_solutions s,
      s.lb0 ≤ cs.b_descs.1 ∧ s.lb1 ≤ cs.b_descs.2) :
    (subdivide_range BIN_POP_SIZE CS_MAX_AGE infeas_maximize s
        (i, j)).bin_sizes0
      = (s.bin_sizes0.set i (s.bin_sizes0.getD i 0 / 2)).insertIdx (i + 1)
          (s.bin_sizes0.getD i 0 / 2) ∧
    (subdivide_range BIN_POP_SIZE CS_MAX_AGE infeas_maximize s
        (i, j)).bin_sizes1
      = (s.bin_sizes1.set j (s.bin_sizes1.getD j 0 / 2)).insertIdx (j + 1)
          (s.bin_sizes1.getD j 0 / 2) ∧
    (subdivide_range BIN_POP_SIZE CS_MAX_AGE infeas_maximize s
        (i, j)).bin_qnt
      = (s.bin_qnt.1 + 1, s.bin_qnt.2 + 1) ∧
    (all_solutions (subdivide_range BIN_POP_SIZE CS_MAX_AGE infeas_maximize s
        (i, j))).Perm (all_solutions s) ∧
    bin_count s ≤ bin_count (idxs.foldl
      (fun t p => subdivide_range BIN_POP_SIZE CS_MAX_AGE infeas_maximize t p)
      s) := by
  have hlens0 : ((s.bin_sizes0.set i (s.bin_sizes0.getD i 0 / 2)).insertIdx
      (i + 1) (s.bin_sizes0.getD i 0 / 2)).length = s.bin_qnt.1 + 1 := by
    rw [List.length_insertIdx _ _ (by rw [List.length_set]; omega),
      List.length_set, hlen0]
  have hlens1 : ((s.bin_sizes1.set j (s.bin_sizes1.getD j 0 / 2)).insertIdx
      (j + 1) (s.bin_sizes1.getD j 0 / 2)).length = s.bin_qnt.2 + 1 := by
    rw [List.length_insertIdx _ _ (by rw [List.length_set]; omega),
      List.length_set, hlen1]
  refine ⟨?_, ?_, ?_, ?_, ?_⟩
  · simp only [subdivide_range]
    exact (update_bins_fields BIN_POP_SIZE CS_MAX_AGE infeas_maximize _ _).1
  · simp only [subdivide_range]
    exact (update_bins_fields BIN_POP_SIZE CS_MAX_AGE infeas_maximize _ _).2.1
  · simp only [subdivide_range]
    exact (update_bins_fields BIN_POP_SIZE CS_MAX_AGE infeas_maximize _ _).2.2
  · simp only [subdivide_range]
    apply all_solutions_update_bins
    · show ((s.bin_sizes0.set i (s.bin_sizes0.getD i 0 / 2)).insertIdx (i + 1)
        (s.bin_sizes0.getD i 0 / 2)).length = s.bin_qnt.1 + 1
      exact hlens0
    · show ((s.bin_sizes1.set j (s.bin_sizes1.getD j 0 / 2)).insertIdx (j + 1)
        (s.bin_sizes1.getD j 0 / 2)).length = s.bin_qnt.2 + 1
      exact hlens1
    · show (s.bin_sizes0.set i (s.bin_sizes0.getD i 0 / 2)).insertIdx (i + 1)
        (s.bin_sizes0.getD i 0 / 2) ≠ []
      intro hnil
      rw [hnil] at hlens0
      simp at hlens0
    · show (s.bin_sizes1.set j (s.bin_sizes1.getD j 0 / 2)).insertIdx (j + 1)
        (s.bin_sizes1.getD j 0 / 2) ≠ []
      intro hnil
      rw [hnil] at hlens1
      simp at hlens1
    · simp only [all_solutions]
      exact List.flatMap_eq_nil_iff.mpr (fun a _ =>
        List.flatMap_eq_nil_iff.mpr (fun b _ => rfl))
    · exact hlb
    · exact hage
    · exact hnodup
  · exact bin_count_le_subdivide_fold BIN_POP_SIZE CS_MAX_AGE
      infeas_maximize idxs s

/-- A 1×1 archive with one fresh feasible solution, ready to subdivide. -/
def subGridW : MAPElites :=
  { bin_sizes0 := [4], bin_sizes1 := [4], bin_qnt := (1, 1),
    bins := fun _ _ =>
      { _feasible := [{ string := "head", age := 5, c_fitness := 2,
                        b_descs := (1, 1) }] } }

/-- Witness for C7 at a concrete archive, subdividing bin (0, 0) and then
applying a further arbitrary sequence of subdivisions. -/
theorem subdivide_range_spec_witness :
    subGridW.bin_sizes0.length = subGridW.bin_qnt.1 ∧
    subGridW.bin_sizes1.length = subGridW.bin_qnt.2 ∧
    0 < subGridW.bin_qnt.1 ∧ 0 < subGridW.bin_qnt.2 ∧
    (∀ cs ∈ all_solutions subGridW, cs.age = 5) ∧
    ((all_solutions subGridW).map (fun c => c.string)).Nodup ∧
    (∀ cs ∈ all_solutions subGridW,
      subGridW.lb0 ≤ cs.b_descs.1 ∧ subGridW.lb1 ≤ cs.b_descs.2) ∧
    ((subdivide_range 5 5 false subGridW (0, 0)).bin_sizes0
        = (subGridW.bin_sizes0.set 0
            (subGridW.bin_sizes0.getD 0 0 / 2)).insertIdx 1
            (subGridW.bin_sizes0.getD 0 0 / 2) ∧
      (subdivide_range 5 5 false subGridW (0, 0)).bin_sizes1
        = (subGridW.bin_sizes1.set 0
            (subGridW.bin_sizes1.getD 0 0 / 2)).insertIdx 1
            (subGridW.bin_sizes1.getD 0 0 / 2) ∧
      (subdivide_range 5 5 false subGridW (0, 0)).bin_qnt
        = (subGridW.bin_qnt.1 + 1, subGridW.bin_qnt.2 + 1) ∧
      (all_solutions (subdivide_range 5 5 false subGridW (0, 0))).Perm
        (all_solutions subGridW) ∧
      bin_count subGridW ≤ bin_count
        ([((0 : ℕ), (0 : ℕ)), (1, 1)].foldl
          (fun t p => subdivide_range 5 5 false t p) subGridW)) :=
  ⟨rfl, rfl, by decide, by decide, by decide, by decide, by decide,
   subdivide_range_spec 5 5 false subGridW 0 0 [(0, 0), (1, 1)] rfl rfl
     (by decide) (by decide) (by decide) (by decide) (by decide)⟩
